import Mathlib

/-!
Shallow embedding of the `helpv` terminal help viewer (Rust sources under
`src/`): the fetcher (`src/fetcher.rs`), the subcommand parser
(`src/parser.rs` with the default patterns of `src/config.rs`), the
finder overlay (`src/finder.rs`), the SEE ALSO / discovery merging and the
drill-in navigation of `src/app.rs`, and the history stack
(`src/history.rs`).

Text is modelled as `List Char` (`Str`): Rust `&str` operations
(`trim`, `to_lowercase`, `lines`, `split_whitespace`, `replace`,
`contains`, `starts_with`, `ends_with`) are given explicit executable
models below.  Child-process execution is abstracted as an environment
function `FetchEnv` mapping an argv vector to an optional captured
result, and the fuzzy matcher (the external `nucleo` crate) is a
function parameter, as the spec treats it as a pluggable dependency.
-/

namespace Helpv

/-- Text as a list of characters (Rust `String` / `&str`). -/
abbrev Str := List Char

/-- Model of Rust `char::is_whitespace` / regex `\s` (ASCII fragment). -/
def isWhite (c : Char) : Bool := c.isWhitespace

/-- Model of regex `\w` (word character, ASCII fragment). -/
def isWordChar (c : Char) : Bool := c.isAlphanum || c = '_'

/-- Model of Rust `str::trim` (drop whitespace from both ends). -/
def rustTrim (l : Str) : Str :=
  ((l.dropWhile isWhite).reverse.dropWhile isWhite).reverse

/-- Model of Rust `str::to_lowercase` (ASCII fragment, per character). -/
def lowerStr (l : Str) : Str := l.map Char.toLower

/-- Model of Rust `str::contains(pat)` for a literal pattern. -/
def containsStr (l pat : Str) : Bool :=
  match l with
  | [] => pat.isEmpty
  | _ :: rest => pat.isPrefixOf l || containsStr rest pat

/-- Model of Rust `str::starts_with(pat)`. -/
def startsWithStr (l pat : Str) : Bool := pat.isPrefixOf l

/-- Model of Rust `str::ends_with(pat)`. -/
def endsWithStr (l pat : Str) : Bool := pat.reverse.isPrefixOf l.reverse

/-- Strip a trailing `'\r'` from one line (Rust `str::lines` does this). -/
def stripCR (l : Str) : Str :=
  if endsWithStr l ['\r'] then l.dropLast else l

/-- Split at every `'\n'` (auxiliary for `rustLines`). -/
def splitNL : Str → List Str
  | [] => [[]]
  | c :: rest =>
    if c = '\n' then [] :: splitNL rest
    else
      match splitNL rest with
      | [] => [[c]]
      | w :: ws => (c :: w) :: ws

/-- Model of Rust `str::lines`: split on `'\n'`, drop a final empty
segment, strip a trailing `'\r'` from each line. -/
def rustLines (l : Str) : List Str :=
  let parts := splitNL l
  let parts := if parts.getLast? = some [] then parts.dropLast else parts
  parts.map stripCR

/-- Model of Rust `str::split_whitespace` (no empty words). -/
def splitWs (l : Str) : List Str :=
  (l.foldr
    (fun c acc =>
      if isWhite c then [] :: acc
      else
        match acc with
        | [] => [[c]]
        | w :: ws => (c :: w) :: ws)
    []).filter (· ≠ [])

/-- Left-to-right literal replacement: at a pattern occurrence emit the
replacement and skip the matched characters (`skip` counts characters of
the current match still to be consumed). -/
def replaceGo (pat rep : Str) (skip : Nat) : Str → Str
  | [] => []
  | c :: rest =>
    match skip with
    | n + 1 => replaceGo pat rep n rest
    | 0 =>
      if pat.isPrefixOf (c :: rest) then
        rep ++ replaceGo pat rep (pat.length - 1) rest
      else c :: replaceGo pat rep 0 rest

/-- Model of Rust `str::replace(pat, rep)` for a non-empty literal
pattern (every occurrence, left to right, non-overlapping; the sources
only use the non-empty patterns `{cmd}`, `{base}`, `{sub}`, `{name}`). -/
def replaceStr (l pat rep : Str) : Str :=
  if pat.isEmpty then l else replaceGo pat rep 0 l

/-- Model of Rust `[T]::join(sep)` on string lists. -/
def joinStr (sep : Str) : List Str → Str
  | [] => []
  | [x] => x
  | x :: y :: rest => x ++ sep ++ joinStr sep (y :: rest)

/-!
## Manual-page de-formatter (`strip_man_formatting`, src/fetcher.rs:150-175)
-/

/-- The inner `while` loop of `strip_man_formatting` after `ESC [`:
consume characters up to and including the first ASCII alphabetic one
(Rust `char::is_ascii_alphabetic`), emitting nothing. -/
def dropCSI : Str → Str
  | [] => []
  | c :: rest => if c.isAlpha then rest else dropCSI rest

theorem dropCSI_length_le (l : Str) : (dropCSI l).length ≤ l.length := by
  induction l with
  | nil => simp [dropCSI]
  | cons c rest ih =>
    simp only [dropCSI]
    split
    · simp
    · exact Nat.le_trans ih (Nat.le_succ _)

/-- Position of the character iterator of `strip_man_formatting`
relative to an ANSI escape sequence: `normal` is the top of the outer
`while`, `esc` is just after consuming a `'\x1b'` (the Rust code peeks
for `'['` here), `csi` is inside the inner `while` that swallows the
CSI sequence. -/
inductive SMode | normal | esc | csi

/-- The loop of `strip_man_formatting` with output buffer `acc`:
backspace pops the previously emitted character, `ESC [` starts a CSI
sequence consumed up to and including the first ASCII alphabetic
character, a lone `ESC` is dropped, everything else is emitted
verbatim. -/
def stripGo : SMode → Str → Str → Str
  | _, [], acc => acc
  | .csi, c :: rest, acc =>
    if c.isAlpha then stripGo .normal rest acc else stripGo .csi rest acc
  | .esc, c :: rest, acc =>
    if c = '[' then stripGo .csi rest acc
    else if c = '\x08' then stripGo .normal rest acc.dropLast
    else if c = '\x1b' then stripGo .esc rest acc
    else stripGo .normal rest (acc ++ [c])
  | .normal, c :: rest, acc =>
    if c = '\x08' then stripGo .normal rest acc.dropLast
    else if c = '\x1b' then stripGo .esc rest acc
    else stripGo .normal rest (acc ++ [c])

/-- `strip_man_formatting` (src/fetcher.rs:150-175). -/
def stripManFormatting (l : Str) : Str := stripGo .normal l []

/-- The `csi` state consumes exactly what `dropCSI` drops. -/
theorem stripGo_csi_eq (l acc : Str) :
    stripGo .csi l acc = stripGo .normal (dropCSI l) acc := by
  induction l generalizing acc with
  | nil => simp [stripGo, dropCSI]
  | cons c rest ih =>
    by_cases h : c.isAlpha
    · simp [stripGo, dropCSI, h]
    · simp [stripGo, dropCSI, h, ih]

/-- A string free of backspace and escape characters. -/
def CleanStr (l : Str) : Prop := '\x08' ∉ l ∧ '\x1b' ∉ l

theorem cleanStr_dropLast {l : Str} (h : CleanStr l) : CleanStr l.dropLast :=
  ⟨fun hm => h.1 (List.dropLast_subset l hm),
   fun hm => h.2 (List.dropLast_subset l hm)⟩

theorem cleanStr_push {l : Str} {c : Char} (h : CleanStr l)
    (h1 : c ≠ '\x08') (h2 : c ≠ '\x1b') : CleanStr (l ++ [c]) := by
  constructor
  · intro hm
    rcases List.mem_append.mp hm with hm | hm
    · exact h.1 hm
    · simp at hm; exact h1 hm.symm
  · intro hm
    rcases List.mem_append.mp hm with hm | hm
    · exact h.2 hm
    · simp at hm; exact h2 hm.symm

theorem stripGo_clean : ∀ (l : Str) (mode : SMode) (acc : Str),
    CleanStr acc → CleanStr (stripGo mode l acc) := by
  intro l
  induction l with
  | nil => intro mode acc h; cases mode <;> simpa [stripGo] using h
  | cons c rest ih =>
    intro mode acc h
    cases mode with
    | csi =>
      by_cases ha : c.isAlpha <;> simp [stripGo, ha] <;> exact ih _ _ h
    | esc =>
      by_cases hbr : c = '['
      · simp only [stripGo, if_pos hbr]; exact ih _ _ h
      · by_cases h08 : c = '\x08'
        · simp only [stripGo, if_neg hbr, if_pos h08]
          exact ih _ _ (cleanStr_dropLast h)
        · by_cases h1b : c = '\x1b'
          · simp only [stripGo, if_neg hbr, if_neg h08, if_pos h1b]
            exact ih _ _ h
          · simp only [stripGo, if_neg hbr, if_neg h08, if_neg h1b]
            exact ih _ _ (cleanStr_push h h08 h1b)
    | normal =>
      by_cases h08 : c = '\x08'
      · simp only [stripGo, if_pos h08]
        exact ih _ _ (cleanStr_dropLast h)
      · by_cases h1b : c = '\x1b'
        · simp only [stripGo, if_neg h08, if_pos h1b]
          exact ih _ _ h
        · simp only [stripGo, if_neg h08, if_neg h1b]
          exact ih _ _ (cleanStr_push h h08 h1b)

theorem stripGo_of_clean : ∀ (l acc : Str), CleanStr l →
    stripGo .normal l acc = acc ++ l := by
  intro l
  induction l with
  | nil => intro acc _; simp [stripGo]
  | cons c rest ih =>
    intro acc h
    have hc : c ≠ '\x08' := fun he => h.1 (he ▸ List.mem_cons_self c rest)
    have he : c ≠ '\x1b' := fun hh => h.2 (hh ▸ List.mem_cons_self c rest)
    have hr : CleanStr rest :=
      ⟨fun hm => h.1 (List.mem_cons_of_mem c hm),
       fun hm => h.2 (List.mem_cons_of_mem c hm)⟩
    rw [show stripGo .normal (c :: rest) acc = stripGo .normal rest (acc ++ [c]) by
      simp only [stripGo, if_neg hc, if_neg he], ih (acc ++ [c]) hr]
    simp

/-- **C3.** `strip_man_formatting` processes its input left to right:
backspace (0x08) removes the previously emitted character, `ESC [`
begins a CSI sequence consumed up to and including the first ASCII
alphabetic character emitting nothing, and every other character is
emitted verbatim; in particular the bold sequence
`"N\x08NA\x08AM\x08ME\x08E"` yields `"NAME"` and `"\x1b[1mBold\x1b[0m"`
yields `"Bold"`. -/
theorem strip_man_formatting_steps :
    stripManFormatting "N\x08NA\x08AM\x08ME\x08E".data = "NAME".data ∧
    stripManFormatting "\x1b[1mBold\x1b[0m".data = "Bold".data ∧
    (∀ acc, stripGo .normal [] acc = acc) ∧
    (∀ rest acc, stripGo .normal ('\x08' :: rest) acc = stripGo .normal rest acc.dropLast) ∧
    (∀ rest acc, stripGo .normal ('\x1b' :: '[' :: rest) acc = stripGo .normal (dropCSI rest) acc) ∧
    (∀ c rest acc, c ≠ '\x08' → c ≠ '\x1b' →
      stripGo .normal (c :: rest) acc = stripGo .normal rest (acc ++ [c])) ∧
    (∀ c rest, c.isAlpha = true → dropCSI (c :: rest) = rest) ∧
    (∀ c rest, c.isAlpha = false → dropCSI (c :: rest) = dropCSI rest) := by
  refine ⟨by decide, by decide, ?_, ?_, ?_, ?_, ?_, ?_⟩
  · intro acc; rfl
  · intro rest acc; simp [stripGo]
  · intro rest acc; simp [stripGo, stripGo_csi_eq]
  · intro c rest acc h1 h2; simp only [stripGo, if_neg h1, if_neg h2]
  · intro c rest h; rw [dropCSI, if_pos h]
  · intro c rest h; rw [dropCSI]; simp [h]

/-- Closed instance of the hypothesis-bearing conjunct of
`strip_man_formatting_steps`: a verbatim character is appended. -/
theorem strip_man_formatting_steps_witness :
    stripGo .normal ['a'] [] = [] ++ ['a'] := by
  have h := strip_man_formatting_steps.2.2.2.2.2.1 'a' [] [] (by decide) (by decide)
  rw [h]; rfl

/-- **C9.** The output of `strip_man_formatting` contains no backspace
and no escape character, for every input; consequently the function is
idempotent on all inputs. -/
theorem strip_man_formatting_clean_idempotent (l : Str) :
    '\x08' ∉ stripManFormatting l ∧ '\x1b' ∉ stripManFormatting l ∧
    stripManFormatting (stripManFormatting l) = stripManFormatting l := by
  have hclean : CleanStr (stripManFormatting l) :=
    stripGo_clean l .normal [] ⟨by simp, by simp⟩
  refine ⟨hclean.1, hclean.2, ?_⟩
  unfold stripManFormatting at *
  rw [stripGo_of_clean _ [] hclean]
  simp

/-!
## Fetcher (`src/fetcher.rs`)

Child-process execution is abstracted by an environment: an argv vector
(first token = program, rest = arguments) maps to `none` when spawning
fails, or to the captured standard streams and exit status.  The `man`
environment variables (`MANPAGER=cat`, …) only shape the child's output
and are absorbed into the environment function.
-/

/-- Captured output of one child process (`std::process::Output`). -/
structure ProcOut where
  stdout : Str
  stderr : Str
  success : Bool

/-- The process environment: argv ↦ captured output (`none` = spawn error). -/
abbrev FetchEnv := List Str → Option ProcOut

/-- `looks_like_help` (src/fetcher.rs:177-184). -/
def looksLikeHelp (text : Str) : Bool :=
  let lower := lowerStr text
  containsStr lower "usage:".data || containsStr lower "options:".data ||
    containsStr lower "commands:".data || containsStr lower "--help".data ||
    containsStr lower "synopsis".data

/-- The stdout/stderr selection chain of `try_help_pattern`
(src/fetcher.rs:98-112): stdout if non-empty after trim, else stderr on
a zero exit status, else stderr when it looks like help. -/
def selectHelpOutput (r : ProcOut) : Option Str :=
  if rustTrim r.stdout ≠ [] then some r.stdout
  else if rustTrim r.stderr ≠ [] ∧ r.success then some r.stderr
  else if rustTrim r.stderr ≠ [] then
    if looksLikeHelp r.stderr then some r.stderr else none
  else none

/-- `try_help_pattern` (src/fetcher.rs:73-113): expand `{cmd}`, `{base}`,
`{sub}` in the template, tokenize by whitespace, run, and select output. -/
def tryHelpPattern (env : FetchEnv) (cmd : List Str) (pattern : Str) : Option Str :=
  let full := joinStr [' '] cmd
  let base := cmd.headD []
  let sub := if cmd.length > 1 then joinStr [' '] cmd.tail else []
  let expanded :=
    replaceStr (replaceStr (replaceStr pattern "{cmd}".data full) "{base}".data base)
      "{sub}".data sub
  match splitWs expanded with
  | [] => none
  | parts =>
    match env parts with
    | none => none
    | some r => selectHelpOutput r

/-- `try_man_page` (src/fetcher.rs:115-148): `man <cmd joined by "-">`,
and for a single-token command also a retry `man <c0>`. -/
def tryManPage (env : FetchEnv) (cmd : List Str) : Option Str :=
  let manPage := joinStr ['-'] cmd
  match env ["man".data, manPage] with
  | none => none
  | some r =>
    if r.success then some (stripManFormatting r.stdout)
    else if cmd.length = 1 then
      match env ["man".data, cmd.headD []] with
      | none => none
      | some r2 =>
        if r2.success then some (stripManFormatting r2.stdout) else none
    else none

/-!
## Configuration (`src/config.rs`)

The regex engine is external (`regex` crate); a configured
`(section, entry)` pair is therefore embedded as its compiled behavior:
a section line matcher and an entry capturer returning
`(group 1, optional group 2)`.  A pattern whose regex fails to compile
is skipped by the source, which is the same as a pattern that matches
nothing.  `HashMap` lookups become association-list lookups.
-/

/-- A compiled `SubcommandPattern` (src/config.rs:25-29). -/
structure CompiledPattern where
  sectionMatch : Str → Bool
  entryCapture : Str → Option (Str × Option Str)

/-- One toolpack's fetch recipes (src/toolpacks.rs, as used by config.rs). -/
structure ToolPack where
  helpCommands : List Str
  subcommandCommands : List Str

/-- `Config` (src/config.rs:8-18), restricted to the fields the modelled
claims exercise: per-tool help-flag overrides, subcommand patterns and
the toolpack registry. -/
structure Config where
  tools : List (Str × List Str)
  subcommandPatterns : List CompiledPattern
  toolpacks : List (Str × ToolPack)

/-- `Config::get_help_flags` (src/config.rs:111-124). -/
def Config.getHelpFlags (cfg : Config) (tool : Str) : List Str :=
  match cfg.tools.lookup tool with
  | some flags => flags
  | none =>
    match cfg.toolpacks.lookup tool with
    | some pack => pack.helpCommands
    | none => ["{cmd} --help".data, "{cmd} -h".data]

/-- `Config::get_subcommand_help_flags` (src/config.rs:127-139). -/
def Config.getSubcommandHelpFlags (cfg : Config) (tool : Str) : List Str :=
  match cfg.toolpacks.lookup tool with
  | some pack => pack.subcommandCommands
  | none => ["{cmd} --help".data, "{base} help {sub}".data, "{cmd} -h".data]

/-- The two error shapes of `fetch_help` (src/fetcher.rs:8 and 36). -/
inductive FetchErr
  | noCommand
  | notFound (path : Str)
deriving DecidableEq

/-- The template loop of `fetch_help` (src/fetcher.rs:21-27): return the
first expanded template whose output is non-empty after trimming. -/
def firstFlagHelp (env : FetchEnv) (cmd : List Str) : List Str → Option Str
  | [] => none
  | p :: rest =>
    match tryHelpPattern env cmd p with
    | some out =>
      if rustTrim out ≠ [] then some out else firstFlagHelp env cmd rest
    | none => firstFlagHelp env cmd rest

/-- `fetch_help` (src/fetcher.rs:6-37). -/
def fetchHelp (env : FetchEnv) (cfg : Config) (cmd : List Str) : Except FetchErr Str :=
  if cmd.isEmpty then .error .noCommand
  else
    let base := cmd.headD []
    let helpFlags :=
      if cmd.length > 1 then cfg.getSubcommandHelpFlags base
      else cfg.getHelpFlags base
    match firstFlagHelp env cmd helpFlags with
    | some out => .ok out
    | none =>
      match tryManPage env cmd with
      | some out =>
        if rustTrim out ≠ [] then .ok out
        else .error (.notFound (joinStr [' '] cmd))
      | none => .error (.notFound (joinStr [' '] cmd))

theorem firstFlagHelp_eq_findSome (env : FetchEnv) (cmd : List Str) :
    ∀ flags : List Str,
      firstFlagHelp env cmd flags =
        flags.findSome? fun p =>
          (tryHelpPattern env cmd p).filter fun out => !(rustTrim out).isEmpty := by
  intro flags
  induction flags with
  | nil => rfl
  | cons p rest ih =>
    rw [firstFlagHelp, List.findSome?_cons]
    cases h : tryHelpPattern env cmd p with
    | none => simpa [Option.filter, h] using ih
    | some out =>
      by_cases hemp : rustTrim out = []
      · simpa [Option.filter, h, hemp] using ih
      · simp [Option.filter, h, hemp]

/-- **C1.** For a non-empty command path, `fetch_help` fails — with
`NotFound` carrying the space-joined command path — exactly when every
help template in order is rejected (no non-empty trimmed output) and the
manual-page fallback yields nothing non-empty; otherwise it returns the
first non-empty text found (templates first, then the manual page). -/
theorem fetch_help_not_found_iff (env : FetchEnv) (cfg : Config) (cmd : List Str)
    (hne : cmd ≠ []) :
    (fetchHelp env cfg cmd = .error (.notFound (joinStr [' '] cmd)) ↔
      ((if cmd.length > 1 then cfg.getSubcommandHelpFlags (cmd.headD [])
        else cfg.getHelpFlags (cmd.headD [])).findSome? fun p =>
          (tryHelpPattern env cmd p).filter fun out => !(rustTrim out).isEmpty) = none ∧
      ((tryManPage env cmd).filter fun out => !(rustTrim out).isEmpty) = none) ∧
    (∀ out,
      ((if cmd.length > 1 then cfg.getSubcommandHelpFlags (cmd.headD [])
        else cfg.getHelpFlags (cmd.headD [])).findSome? fun p =>
          (tryHelpPattern env cmd p).filter fun out => !(rustTrim out).isEmpty) = some out →
      fetchHelp env cfg cmd = .ok out) ∧
    (((if cmd.length > 1 then cfg.getSubcommandHelpFlags (cmd.headD [])
        else cfg.getHelpFlags (cmd.headD [])).findSome? fun p =>
          (tryHelpPattern env cmd p).filter fun out => !(rustTrim out).isEmpty) = none →
      ∀ out, ((tryManPage env cmd).filter fun out => !(rustTrim out).isEmpty) = some out →
      fetchHelp env cfg cmd = .ok out) := by
  have hempty : cmd.isEmpty = false := by
    cases cmd with
    | nil => exact absurd rfl hne
    | cons a t => rfl
  unfold fetchHelp
  rw [hempty]
  simp only [Bool.false_eq_true, if_false]
  rw [firstFlagHelp_eq_findSome]
  cases hfs : ((if cmd.length > 1 then cfg.getSubcommandHelpFlags (cmd.headD [])
      else cfg.getHelpFlags (cmd.headD [])).findSome? fun p =>
        (tryHelpPattern env cmd p).filter fun out => !(rustTrim out).isEmpty) with
  | some out => simp
  | none =>
    simp only [true_and, forall_const]
    cases hman : tryManPage env cmd with
    | none => simp [Option.filter]
    | some out =>
      by_cases hemp : rustTrim out = []
      · simp [Option.filter, hemp]
      · simp [Option.filter, hemp]

/-- Closed instance of `fetch_help_not_found_iff`: in an environment
where every spawn fails, fetching help for `git` reports `NotFound`. -/
theorem fetch_help_not_found_iff_witness :
    fetchHelp (fun _ => none) ⟨[], [], []⟩ ["git".data] =
      .error (.notFound "git".data) := by
  have h := fetch_help_not_found_iff (fun _ => none) ⟨[], [], []⟩ ["git".data]
    (by decide)
  exact h.1.mpr (by constructor <;> rfl)

/-- **C2.** A candidate template invocation's output is accepted exactly
when (a) stdout is non-empty after trimming — stdout is returned — or
else (b) the exit status is zero and stderr is non-empty — stderr is
returned — or else (c) stderr is non-empty and contains one of the
help markers case-insensitively — stderr is returned; otherwise the
template is rejected. -/
theorem try_help_pattern_selection (env : FetchEnv) (cmd : List Str)
    (pattern : Str) (r : ProcOut) (parts : List Str)
    (hparts : parts ≠ [])
    (hsplit : splitWs (replaceStr (replaceStr (replaceStr pattern "{cmd}".data
        (joinStr [' '] cmd)) "{base}".data (cmd.headD []))
        "{sub}".data (if cmd.length > 1 then joinStr [' '] cmd.tail else [])) = parts)
    (henv : env parts = some r) :
    tryHelpPattern env cmd pattern = selectHelpOutput r ∧
    ((selectHelpOutput r).isSome ↔
      (rustTrim r.stdout ≠ [] ∨ (r.success = true ∧ rustTrim r.stderr ≠ []) ∨
        (rustTrim r.stderr ≠ [] ∧ looksLikeHelp r.stderr = true))) ∧
    (rustTrim r.stdout ≠ [] → selectHelpOutput r = some r.stdout) ∧
    (rustTrim r.stdout = [] → rustTrim r.stderr ≠ [] → r.success = true →
      selectHelpOutput r = some r.stderr) ∧
    (rustTrim r.stdout = [] → r.success = false → rustTrim r.stderr ≠ [] →
      looksLikeHelp r.stderr = true → selectHelpOutput r = some r.stderr) ∧
    (looksLikeHelp r.stderr = true ↔
      (containsStr (lowerStr r.stderr) "usage:".data ||
       containsStr (lowerStr r.stderr) "options:".data ||
       containsStr (lowerStr r.stderr) "commands:".data ||
       containsStr (lowerStr r.stderr) "--help".data ||
       containsStr (lowerStr r.stderr) "synopsis".data) = true) := by
  refine ⟨?_, ?_, ?_, ?_, ?_, Iff.rfl⟩
  · simp only [tryHelpPattern]
    rw [hsplit]
    cases parts with
    | nil => exact absurd rfl hparts
    | cons a t => simp [henv]
  · unfold selectHelpOutput
    by_cases h1 : rustTrim r.stdout ≠ [] <;>
      by_cases h2 : rustTrim r.stderr ≠ [] <;>
        cases hs : r.success <;>
          by_cases h3 : looksLikeHelp r.stderr <;>
            simp [h1, h2, hs, h3]
  · intro h1; unfold selectHelpOutput; rw [if_pos h1]
  · intro h1 h2 h3
    unfold selectHelpOutput
    rw [if_neg (by simpa using h1), if_pos ⟨h2, h3⟩]
  · intro h1 h2 h3 h4
    unfold selectHelpOutput
    rw [if_neg (by simpa using h1), if_neg (by simp [h2])]
    rw [if_pos h3, if_pos h4]

/-- Closed instance of `try_help_pattern_selection`: `git --help`
printing usage text to stdout is accepted with that stdout. -/
theorem try_help_pattern_selection_witness :
    tryHelpPattern (fun _ => some ⟨"usage: git".data, [], true⟩) ["git".data]
      "{cmd} --help".data = selectHelpOutput ⟨"usage: git".data, [], true⟩ :=
  (try_help_pattern_selection (fun _ => some ⟨"usage: git".data, [], true⟩)
    ["git".data] "{cmd} --help".data ⟨"usage: git".data, [], true⟩
    ["git".data, "--help".data] (by decide) (by decide) rfl).1

/-!
## Parser (`src/parser.rs`) and the default patterns (`src/config.rs:92-108`)

The three default `(section, entry)` regex pairs and the fixed regexes
of the git-style and aggressive layers are embedded as explicit
matching functions.  Each follows the Rust `regex` crate's
leftmost-greedy semantics for the concrete pattern: character classes
are disjoint from the whitespace runs that separate them, so greedy
maximal-run scanning is exact (the one place backtracking matters —
`\s{2,}(.+)$` on a line ending in whitespace — is modelled explicitly).
-/

/-- `Subcommand` (src/parser.rs:5-13). -/
structure Subcommand where
  name : Str
  description : Option Str
  label : Option Str
  invokeCommand : Option Str
deriving DecidableEq

/-- The dedup-push idiom shared by all parser layers and
`merge_discovered_items`: append unless an entry with the same name is
already present (first occurrence wins). -/
def pushUnique (acc : List Subcommand) (sc : Subcommand) : List Subcommand :=
  if acc.any (fun s => s.name == sc.name) then acc else acc ++ [sc]

/-- Regex `\w` or `-` (the tail class of every name capture group). -/
def isWordDash (c : Char) : Bool := isWordChar c || c = '-'

/-- `:?\s*$` — an optional colon followed by only whitespace. -/
def matchAfterKeyword (rest : Str) : Bool :=
  match rest with
  | ':' :: t => t.all isWhite
  | t => t.all isWhite

/-- `available\s+commands?` followed by `:?\s*$`, on a lowercased line. -/
def availableCommandsMatch (l : Str) : Bool :=
  "available".data.isPrefixOf l &&
    (let r := l.drop 9
     let ws := r.takeWhile isWhite
     let r2 := r.drop ws.length
     decide (1 ≤ ws.length) &&
       (("commands".data.isPrefixOf r2 && matchAfterKeyword (r2.drop 8)) ||
        ("command".data.isPrefixOf r2 && matchAfterKeyword (r2.drop 7))))

/-- Default section regex 1:
`(?im)^(commands?|subcommands?|available\s+commands?):?\s*$`. -/
def defaultSection1 (line : Str) : Bool :=
  let l := lowerStr line
  ("commands".data.isPrefixOf l && matchAfterKeyword (l.drop 8)) ||
    ("command".data.isPrefixOf l && matchAfterKeyword (l.drop 7)) ||
    ("subcommands".data.isPrefixOf l && matchAfterKeyword (l.drop 11)) ||
    ("subcommand".data.isPrefixOf l && matchAfterKeyword (l.drop 10)) ||
    availableCommandsMatch l

/-- Default section regex 2: `(?im)^(usage|options):?\s*$`. -/
def defaultSection2 (line : Str) : Bool :=
  let l := lowerStr line
  ("usage".data.isPrefixOf l && matchAfterKeyword (l.drop 5)) ||
    ("options".data.isPrefixOf l && matchAfterKeyword (l.drop 7))

/-- Default section regex 3 (gh style): `(?i)^\w+\s+COMMANDS?\s*$`. -/
def defaultSection3 (line : Str) : Bool :=
  let l := lowerStr line
  match l with
  | [] => false
  | c :: _ =>
    isWordChar c &&
      (let w := l.takeWhile isWordChar
       let r := l.drop w.length
       let ws := r.takeWhile isWhite
       let r2 := r.drop ws.length
       decide (1 ≤ ws.length) &&
         (("commands".data.isPrefixOf r2 && (r2.drop 8).all isWhite) ||
          ("command".data.isPrefixOf r2 && (r2.drop 7).all isWhite)))

/-- Default entry regex 1: `^\s{2,4}([\w][\w-]*)\s+(.*)$`. -/
def defaultEntry1 (line : Str) : Option (Str × Option Str) :=
  let ws := line.takeWhile isWhite
  let rest := line.drop ws.length
  if 2 ≤ ws.length ∧ ws.length ≤ 4 then
    match rest with
    | [] => none
    | c :: _ =>
      if isWordChar c then
        let name := rest.takeWhile isWordDash
        let after := rest.drop name.length
        let ws2 := after.takeWhile isWhite
        let rem := after.drop ws2.length
        if 1 ≤ ws2.length then some (name, some rem) else none
      else none
  else none

/-- Default entry regex 2: `^\s{2,4}([\w][\w-]*)\s{2,}(.*)$`. -/
def defaultEntry2 (line : Str) : Option (Str × Option Str) :=
  let ws := line.takeWhile isWhite
  let rest := line.drop ws.length
  if 2 ≤ ws.length ∧ ws.length ≤ 4 then
    match rest with
    | [] => none
    | c :: _ =>
      if isWordChar c then
        let name := rest.takeWhile isWordDash
        let after := rest.drop name.length
        let ws2 := after.takeWhile isWhite
        let rem := after.drop ws2.length
        if 2 ≤ ws2.length then some (name, some rem) else none
      else none
  else none

/-- Default entry regex 3 (gh style): `^\s{2}([\w][\w-]*):\s+(.*)$`. -/
def defaultEntry3 (line : Str) : Option (Str × Option Str) :=
  match line with
  | c1 :: c2 :: rest =>
    if isWhite c1 ∧ isWhite c2 then
      match rest with
      | [] => none
      | c :: _ =>
        if isWordChar c then
          let name := rest.takeWhile isWordDash
          let after := rest.drop name.length
          match after with
          | ':' :: after2 =>
            let ws2 := after2.takeWhile isWhite
            let rem := after2.drop ws2.length
            if 1 ≤ ws2.length then some (name, some rem) else none
          | _ => none
        else none
    else none
  | _ => none

/-- `Config::default_subcommand_patterns` (src/config.rs:92-108),
compiled. -/
def defaultPatterns : List CompiledPattern :=
  [⟨defaultSection1, defaultEntry1⟩,
   ⟨defaultSection2, defaultEntry2⟩,
   ⟨defaultSection3, defaultEntry3⟩]

/-- The default configuration (`Config::default_config` +
`apply_defaults`, src/config.rs:78-90): no per-tool overrides, the
three default patterns, no toolpacks. -/
def defaultConfig : Config := ⟨[], defaultPatterns, []⟩

/-- Loop state of the configured-pattern layer
(src/parser.rs:29-30): `in_section`, `blank_line_count` and the
accumulated subcommands. -/
structure L1State where
  inSection : Bool
  blanks : Nat
  acc : List Subcommand

/-- One line of the configured-pattern loop (src/parser.rs:32-78). -/
def layer1Line (p : CompiledPattern) (st : L1State) (line : Str) : L1State :=
  if p.sectionMatch line then { st with inSection := true, blanks := 0 }
  else if st.inSection then
    if rustTrim line = [] then
      let b := st.blanks + 1
      if 2 ≤ b then { st with inSection := false, blanks := b }
      else { st with blanks := b }
    else if ¬startsWithStr line [' '] ∧ ¬startsWithStr line ['\t'] ∧
        endsWithStr line [':'] then
      { st with inSection := false }
    else
      let st := { st with blanks := 0 }
      match p.entryCapture line with
      | some (name, g2) =>
        if startsWithStr name ['-'] then st
        else { st with
          acc := pushUnique st.acc ⟨name, g2.map rustTrim, none, none⟩ }
      | none => st
  else st

/-- The configured-pattern layer (src/parser.rs:18-79): one shared
accumulator over all patterns, per-pattern section state. -/
def parsePatterns (lines : List Str) (pats : List CompiledPattern) :
    List Subcommand :=
  pats.foldl (fun acc p => ((lines.foldl (layer1Line p) ⟨false, 0, acc⟩)).acc) []

/-- Entry regex of `parse_git_style`: `^   ([a-z][\w-]*)\s{2,}(.+)$`
(exactly three literal spaces; `(.+)` forces a backtrack of one
whitespace character when the line ends in the separator run). -/
def gitEntryCapture (line : Str) : Option (Str × Str) :=
  match line with
  | ' ' :: ' ' :: ' ' :: rest =>
    match rest with
    | [] => none
    | c :: _ =>
      if c.isLower then
        let name := rest.takeWhile isWordDash
        let after := rest.drop name.length
        let ws2 := after.takeWhile isWhite
        let rem := after.drop ws2.length
        if rem ≠ [] then
          if 2 ≤ ws2.length then some (name, rem) else none
        else
          if 3 ≤ ws2.length then
            match ws2.getLast? with
            | some w => some (name, [w])
            | none => none
          else none
      else none
  | _ => none

/-- Loop state of `parse_git_style` (src/parser.rs:103-105). -/
structure GitState where
  pastUsage : Bool
  inCommandSection : Bool
  acc : List Subcommand

/-- The entry-matching tail of the git-style loop
(src/parser.rs:147-163). -/
def gitEntryStep (st : GitState) (line : Str) : GitState :=
  if st.inCommandSection then
    match gitEntryCapture line with
    | some (name, desc) =>
      { st with acc := pushUnique st.acc ⟨name, some (rustTrim desc), none, none⟩ }
    | none => st
  else st

/-- One line of `parse_git_style` (src/parser.rs:107-163). -/
def gitStyleLine (st : GitState) (line : Str) : GitState :=
  if startsWithStr line "usage:".data || startsWithStr line "Usage:".data then
    { st with pastUsage := false }
  else if ¬st.pastUsage ∧ rustTrim line = [] then
    { st with pastUsage := true }
  else if ¬st.pastUsage then st
  else if ¬startsWithStr line [' '] ∧ ¬startsWithStr line ['\t'] ∧
      rustTrim line ≠ [] then
    let trimmed := rustTrim line
    if (trimmed.head?.map Char.isLower).getD false ||
        containsStr trimmed "(see also:".data then
      { st with inCommandSection := true }
    else if startsWithStr trimmed ['\''] || startsWithStr trimmed ['"'] then
      { st with inCommandSection := false }
    else gitEntryStep st line
  else gitEntryStep st line

/-- `parse_git_style` (src/parser.rs:97-166). -/
def parseGitStyle (lines : List Str) : List Subcommand :=
  (lines.foldl gitStyleLine ⟨false, false, []⟩).acc

/-- Entry regex of `parse_aggressive`:
`^\s{2,6}([a-z][\w-]*):?\s{2,}(.*)$`. -/
def aggrEntryCapture (line : Str) : Option (Str × Str) :=
  let ws := line.takeWhile isWhite
  let rest := line.drop ws.length
  if 2 ≤ ws.length ∧ ws.length ≤ 6 then
    match rest with
    | [] => none
    | c :: _ =>
      if c.isLower then
        let name := rest.takeWhile isWordDash
        let after := rest.drop name.length
        let after2 := match after with
          | ':' :: t => t
          | t => t
        let ws2 := after2.takeWhile isWhite
        let rem := after2.drop ws2.length
        if 2 ≤ ws2.length then some (name, rem) else none
      else none
  else none

/-- Loop state of `parse_aggressive` (src/parser.rs:174). -/
structure AggrState where
  inLikely : Bool
  acc : List Subcommand

/-- One line of `parse_aggressive` (src/parser.rs:176-226). -/
def aggressiveLine (st : AggrState) (line : Str) : AggrState :=
  let lower := lowerStr line
  if containsStr lower "command".data || containsStr lower "subcommand".data ||
      containsStr lower "available".data then
    { st with inLikely := true }
  else if st.inLikely then
    if rustTrim line = [] then st
    else if ¬startsWithStr line [' '] ∧ ¬startsWithStr line ['\t'] then
      let trimmed := rustTrim line
      if ¬((trimmed.head?.map Char.isLower).getD false) ∧
          ¬containsStr lower "command".data ∧
          ¬containsStr lower "see also".data then
        { st with inLikely := false }
      else st
    else
      match aggrEntryCapture line with
      | some (name, desc) =>
        if startsWithStr name ['-'] then st
        else { st with
          acc := pushUnique st.acc ⟨name, some (rustTrim desc), none, none⟩ }
      | none => st
  else st

/-- `parse_aggressive` (src/parser.rs:168-229). -/
def parseAggressive (lines : List Str) : List Subcommand :=
  (lines.foldl aggressiveLine ⟨false, []⟩).acc

/-- `parse_subcommands` (src/parser.rs:15-92): configured patterns,
then the git-style fallback, then the aggressive fallback. -/
def parseSubcommands (help : Str) (cfg : Config) : List Subcommand :=
  let lines := rustLines help
  let subs := parsePatterns lines cfg.subcommandPatterns
  let subs := if subs.isEmpty then parseGitStyle lines else subs
  if subs.isEmpty then parseAggressive lines else subs

/-- `merge_discovered_items` (src/app.rs:616-623). -/
def mergeDiscoveredItems (subs : List Subcommand) :
    List Subcommand → List Subcommand
  | [] => subs
  | d :: rest =>
    if subs.any (fun s => s.name == d.name) then mergeDiscoveredItems subs rest
    else mergeDiscoveredItems (subs ++ [d]) rest

/-- The names of a subcommand list. -/
def namesOf (l : List Subcommand) : List Str := l.map (·.name)

theorem pushUnique_nodup {acc : List Subcommand} {sc : Subcommand}
    (h : (namesOf acc).Nodup) : (namesOf (pushUnique acc sc)).Nodup := by
  unfold pushUnique
  split
  · exact h
  · rename_i hna
    have hfresh : sc.name ∉ namesOf acc := by
      intro hmem
      rcases List.mem_map.mp hmem with ⟨s, hs, heq⟩
      have : acc.any (fun s => s.name == sc.name) = true :=
        List.any_eq_true.mpr ⟨s, hs, by simp [heq]⟩
      exact hna this
    have hd : (namesOf acc).Disjoint [sc.name] := by
      intro a ha hb
      simp only [List.mem_singleton] at hb
      subst hb
      exact hfresh ha
    have : (namesOf acc ++ [sc.name]).Nodup := h.append (by simp) hd
    simpa [namesOf] using this

theorem pushUnique_mem {acc : List Subcommand} {sc x : Subcommand}
    (h : x ∈ pushUnique acc sc) : x ∈ acc ∨ x = sc := by
  unfold pushUnique at h
  split at h
  · exact Or.inl h
  · rcases List.mem_append.mp h with h | h
    · exact Or.inl h
    · simp at h; exact Or.inr h

/-- Name shape produced by every concrete entry regex: a word character
followed by word characters or `-` (regex `[\w][\w-]*` or its
`[a-z][\w-]*` restriction). -/
def TokenName (n : Str) : Prop :=
  ∃ c cs, n = c :: cs ∧ isWordChar c = true ∧ ∀ x ∈ cs, isWordDash x = true

/-- An entry capturer all of whose captured names are token-like. -/
def GoodCapture (p : CompiledPattern) : Prop :=
  ∀ line name g2, p.entryCapture line = some (name, g2) → TokenName name

theorem tokenName_takeWhile {l : Str} {c : Char} {t : Str}
    (hl : l = c :: t) (hc : isWordChar c = true) :
    TokenName (l.takeWhile isWordDash) := by
  subst hl
  rw [List.takeWhile_cons_of_pos (by simp [isWordDash, hc])]
  exact ⟨c, _, rfl, hc, fun x hx => List.mem_takeWhile_imp hx⟩

theorem isWordChar_of_isLower {c : Char} (h : c.isLower = true) :
    isWordChar c = true := by
  simp [isWordChar, Char.isAlphanum, Char.isAlpha, h]

theorem defaultEntry1_token : GoodCapture ⟨defaultSection1, defaultEntry1⟩ := by
  intro line name g2 h
  simp only [defaultEntry1] at h
  split at h
  · split at h
    · exact absurd h (by simp)
    · rename_i c t heq
      split at h
      · rename_i hc
        split at h
        · simp only [Option.some.injEq, Prod.mk.injEq] at h
          exact h.1 ▸ tokenName_takeWhile heq hc
        · exact absurd h (by simp)
      · exact absurd h (by simp)
  · exact absurd h (by simp)

theorem defaultEntry2_token : GoodCapture ⟨defaultSection2, defaultEntry2⟩ := by
  intro line name g2 h
  simp only [defaultEntry2] at h
  split at h
  · split at h
    · exact absurd h (by simp)
    · rename_i c t heq
      split at h
      · rename_i hc
        split at h
        · simp only [Option.some.injEq, Prod.mk.injEq] at h
          exact h.1 ▸ tokenName_takeWhile heq hc
        · exact absurd h (by simp)
      · exact absurd h (by simp)
  · exact absurd h (by simp)

theorem defaultEntry3_token : GoodCapture ⟨defaultSection3, defaultEntry3⟩ := by
  intro line name g2 h
  simp only [defaultEntry3] at h
  split at h
  · rename_i c1 c2 rest
    split at h
    · split at h
      · exact absurd h (by simp)
      · rename_i c t
        split at h
        · rename_i hc
          split at h
          · rename_i after2 hafter
            split at h
            · simp only [Option.some.injEq, Prod.mk.injEq] at h
              exact h.1 ▸ tokenName_takeWhile rfl hc
            · exact absurd h (by simp)
          · exact absurd h (by simp)
        · exact absurd h (by simp)
    · exact absurd h (by simp)
  · exact absurd h (by simp)

theorem gitEntryCapture_token {line name desc}
    (h : gitEntryCapture line = some (name, desc)) : TokenName name := by
  simp only [gitEntryCapture] at h
  split at h
  · rename_i rest
    split at h
    · exact absurd h (by simp)
    · rename_i c t
      split at h
      · rename_i hc
        have hw := isWordChar_of_isLower hc
        split at h
        · split at h
          · simp only [Option.some.injEq, Prod.mk.injEq] at h
            exact h.1 ▸ tokenName_takeWhile rfl hw
          · exact absurd h (by simp)
        · split at h
          · split at h
            · simp only [Option.some.injEq, Prod.mk.injEq] at h
              exact h.1 ▸ tokenName_takeWhile rfl hw
            · exact absurd h (by simp)
          · exact absurd h (by simp)
      · exact absurd h (by simp)
  · exact absurd h (by simp)

theorem aggrEntryCapture_token {line name desc}
    (h : aggrEntryCapture line = some (name, desc)) : TokenName name := by
  simp only [aggrEntryCapture] at h
  split at h
  · split at h
    · exact absurd h (by simp)
    · rename_i c t heq
      split at h
      · rename_i hc
        split at h
        · simp only [Option.some.injEq, Prod.mk.injEq] at h
          exact h.1 ▸ tokenName_takeWhile heq (isWordChar_of_isLower hc)
        · exact absurd h (by simp)
      · exact absurd h (by simp)
  · exact absurd h (by simp)

/-!
### Parser invariants: pairwise-distinct, token-like names
-/

theorem layer1Line_nodup (p : CompiledPattern) (st : L1State) (line : Str)
    (h : (namesOf st.acc).Nodup) :
    (namesOf (layer1Line p st line).acc).Nodup := by
  unfold layer1Line
  repeat' first
    | split
    | (simp only []; split)
  all_goals first | exact h | exact pushUnique_nodup h

theorem layer1Line_token (p : CompiledPattern) (hp : GoodCapture p)
    (st : L1State) (line : Str)
    (h : ∀ x ∈ st.acc, TokenName x.name) :
    ∀ x ∈ (layer1Line p st line).acc, TokenName x.name := by
  unfold layer1Line
  repeat' first
    | split
    | (simp only []; split)
  all_goals try exact h
  intro x hx
  rcases pushUnique_mem hx with h' | h'
  · exact h x h'
  · subst h'
    exact hp _ _ _ (by assumption)

theorem foldl_layer1_nodup (p : CompiledPattern) (lines : List Str) :
    ∀ st : L1State, (namesOf st.acc).Nodup →
      (namesOf ((lines.foldl (layer1Line p) st)).acc).Nodup := by
  induction lines with
  | nil => intro st h; exact h
  | cons l rest ih =>
    intro st h
    exact ih (layer1Line p st l) (layer1Line_nodup p st l h)

theorem foldl_layer1_token (p : CompiledPattern) (hp : GoodCapture p)
    (lines : List Str) :
    ∀ st : L1State, (∀ x ∈ st.acc, TokenName x.name) →
      ∀ x ∈ ((lines.foldl (layer1Line p) st)).acc, TokenName x.name := by
  induction lines with
  | nil => intro st h; exact h
  | cons l rest ih =>
    intro st h
    exact ih (layer1Line p st l) (layer1Line_token p hp st l h)

theorem parsePatterns_nodup (pats : List CompiledPattern) (lines : List Str) :
    (namesOf (parsePatterns lines pats)).Nodup := by
  unfold parsePatterns
  suffices h : ∀ acc : List Subcommand, (namesOf acc).Nodup →
      (namesOf (pats.foldl
        (fun acc p => ((lines.foldl (layer1Line p) ⟨false, 0, acc⟩)).acc) acc)).Nodup by
    exact h [] (by simp [namesOf])
  induction pats with
  | nil => intro acc h; exact h
  | cons p rest ih =>
    intro acc h
    exact ih _ (foldl_layer1_nodup p lines ⟨false, 0, acc⟩ h)

theorem parsePatterns_token (pats : List CompiledPattern)
    (hp : ∀ p ∈ pats, GoodCapture p) (lines : List Str) :
    ∀ x ∈ parsePatterns lines pats, TokenName x.name := by
  unfold parsePatterns
  suffices h : ∀ acc : List Subcommand, (∀ x ∈ acc, TokenName x.name) →
      ∀ x ∈ (pats.foldl
        (fun acc p => ((lines.foldl (layer1Line p) ⟨false, 0, acc⟩)).acc) acc),
        TokenName x.name by
    exact h [] (by simp)
  induction pats with
  | nil => intro acc h; exact h
  | cons p rest ih =>
    intro acc h
    exact ih (fun q hq => hp q (List.mem_cons_of_mem p hq)) _
      (foldl_layer1_token p (hp p (List.mem_cons_self p rest)) lines ⟨false, 0, acc⟩ h)

theorem gitEntryStep_nodup (st : GitState) (line : Str)
    (h : (namesOf st.acc).Nodup) :
    (namesOf (gitEntryStep st line).acc).Nodup := by
  unfold gitEntryStep
  repeat' split
  all_goals first | exact h | exact pushUnique_nodup h

theorem gitStyleLine_nodup (st : GitState) (line : Str)
    (h : (namesOf st.acc).Nodup) :
    (namesOf (gitStyleLine st line).acc).Nodup := by
  unfold gitStyleLine
  repeat' first
    | split
    | (simp only []; split)
  all_goals first | exact h | exact gitEntryStep_nodup st line h

theorem gitEntryStep_token (st : GitState) (line : Str)
    (h : ∀ x ∈ st.acc, TokenName x.name) :
    ∀ x ∈ (gitEntryStep st line).acc, TokenName x.name := by
  unfold gitEntryStep
  repeat' split
  all_goals try exact h
  intro x hx
  rcases pushUnique_mem hx with h' | h'
  · exact h x h'
  · subst h'
    exact gitEntryCapture_token (by assumption)

theorem gitStyleLine_token (st : GitState) (line : Str)
    (h : ∀ x ∈ st.acc, TokenName x.name) :
    ∀ x ∈ (gitStyleLine st line).acc, TokenName x.name := by
  unfold gitStyleLine
  repeat' first
    | split
    | (simp only []; split)
  all_goals first | exact h | exact gitEntryStep_token st line h

theorem parseGitStyle_nodup (lines : List Str) :
    (namesOf (parseGitStyle lines)).Nodup := by
  unfold parseGitStyle
  suffices h : ∀ st : GitState, (namesOf st.acc).Nodup →
      (namesOf (lines.foldl gitStyleLine st).acc).Nodup by
    exact h ⟨false, false, []⟩ (by simp [namesOf])
  induction lines with
  | nil => intro st h; exact h
  | cons l rest ih =>
    intro st h
    exact ih (gitStyleLine st l) (gitStyleLine_nodup st l h)

theorem parseGitStyle_token (lines : List Str) :
    ∀ x ∈ parseGitStyle lines, TokenName x.name := by
  unfold parseGitStyle
  suffices h : ∀ st : GitState, (∀ x ∈ st.acc, TokenName x.name) →
      ∀ x ∈ (lines.foldl gitStyleLine st).acc, TokenName x.name by
    exact h ⟨false, false, []⟩ (by simp)
  induction lines with
  | nil => intro st h; exact h
  | cons l rest ih =>
    intro st h
    exact ih (gitStyleLine st l) (gitStyleLine_token st l h)

theorem aggressiveLine_nodup (st : AggrState) (line : Str)
    (h : (namesOf st.acc).Nodup) :
    (namesOf (aggressiveLine st line).acc).Nodup := by
  unfold aggressiveLine
  repeat' first
    | split
    | (simp only []; split)
  all_goals first | exact h | exact pushUnique_nodup h

theorem aggressiveLine_token (st : AggrState) (line : Str)
    (h : ∀ x ∈ st.acc, TokenName x.name) :
    ∀ x ∈ (aggressiveLine st line).acc, TokenName x.name := by
  unfold aggressiveLine
  repeat' first
    | split
    | (simp only []; split)
  all_goals try exact h
  intro x hx
  rcases pushUnique_mem hx with h' | h'
  · exact h x h'
  · subst h'
    exact aggrEntryCapture_token (by assumption)

theorem parseAggressive_nodup (lines : List Str) :
    (namesOf (parseAggressive lines)).Nodup := by
  unfold parseAggressive
  suffices h : ∀ st : AggrState, (namesOf st.acc).Nodup →
      (namesOf (lines.foldl aggressiveLine st).acc).Nodup by
    exact h ⟨false, []⟩ (by simp [namesOf])
  induction lines with
  | nil => intro st h; exact h
  | cons l rest ih =>
    intro st h
    exact ih (aggressiveLine st l) (aggressiveLine_nodup st l h)

theorem parseAggressive_token (lines : List Str) :
    ∀ x ∈ parseAggressive lines, TokenName x.name := by
  unfold parseAggressive
  suffices h : ∀ st : AggrState, (∀ x ∈ st.acc, TokenName x.name) →
      ∀ x ∈ (lines.foldl aggressiveLine st).acc, TokenName x.name by
    exact h ⟨false, []⟩ (by simp)
  induction lines with
  | nil => intro st h; exact h
  | cons l rest ih =>
    intro st h
    exact ih (aggressiveLine st l) (aggressiveLine_token st l h)

theorem parseSubcommands_nodup (help : Str) (cfg : Config) :
    (namesOf (parseSubcommands help cfg)).Nodup := by
  unfold parseSubcommands
  simp only []
  repeat' split
  all_goals first
    | exact parseAggressive_nodup _
    | exact parseGitStyle_nodup _
    | exact parsePatterns_nodup _ _

theorem mergeDiscoveredItems_spec (discovered : List Subcommand) :
    ∀ subs : List Subcommand,
      ∃ added, mergeDiscoveredItems subs discovered = subs ++ added ∧
        ∀ x ∈ added, x.name ∉ namesOf subs := by
  induction discovered with
  | nil => intro subs; exact ⟨[], by simp [mergeDiscoveredItems], by simp⟩
  | cons d rest ih =>
    intro subs
    unfold mergeDiscoveredItems
    split
    · rcases ih subs with ⟨added, heq, hfresh⟩
      exact ⟨added, heq, hfresh⟩
    · rename_i hna
      rcases ih (subs ++ [d]) with ⟨added, heq, hfresh⟩
      have hd : d.name ∉ namesOf subs := by
        intro hmem
        rcases List.mem_map.mp hmem with ⟨s, hs, hseq⟩
        exact hna (List.any_eq_true.mpr ⟨s, hs, by simp [hseq]⟩)
      refine ⟨d :: added, by simpa using heq, ?_⟩
      intro x hx
      rcases List.mem_cons.mp hx with hx | hx
      · subst hx; exact hd
      · intro hmem
        apply hfresh x hx
        unfold namesOf at hmem ⊢
        rw [List.map_append]
        exact List.mem_append_left _ hmem

theorem mergeDiscoveredItems_nodup (discovered : List Subcommand) :
    ∀ subs : List Subcommand, (namesOf subs).Nodup →
      (namesOf (mergeDiscoveredItems subs discovered)).Nodup := by
  induction discovered with
  | nil => intro subs h; simpa [mergeDiscoveredItems] using h
  | cons d rest ih =>
    intro subs h
    unfold mergeDiscoveredItems
    split
    · exact ih subs h
    · rename_i hna
      refine ih (subs ++ [d]) ?_
      have hd : d.name ∉ namesOf subs := by
        intro hmem
        rcases List.mem_map.mp hmem with ⟨s, hs, hseq⟩
        exact hna (List.any_eq_true.mpr ⟨s, hs, by simp [hseq]⟩)
      have hdisj : (namesOf subs).Disjoint [d.name] := by
        intro a ha hb
        simp only [List.mem_singleton] at hb
        subst hb
        exact hd ha
      have : (namesOf subs ++ [d.name]).Nodup := h.append (by simp) hdisj
      simpa [namesOf] using this

/-- **C4.** Parsed subcommand names are pairwise distinct for every
help text and configuration (first occurrence wins), and merging a
discovered list preserves distinctness, leaves every pre-existing entry
unchanged in place, and adds only items whose names were not already
present. -/
theorem parse_names_nodup_and_merge :
    (∀ (help : Str) (cfg : Config), (namesOf (parseSubcommands help cfg)).Nodup) ∧
    (∀ (subs discovered : List Subcommand),
      ((namesOf subs).Nodup →
        (namesOf (mergeDiscoveredItems subs discovered)).Nodup) ∧
      ∃ added, mergeDiscoveredItems subs discovered = subs ++ added ∧
        ∀ x ∈ added, x.name ∉ namesOf subs) := by
  refine ⟨parseSubcommands_nodup, fun subs discovered => ⟨?_, ?_⟩⟩
  · exact mergeDiscoveredItems_nodup discovered subs
  · exact mergeDiscoveredItems_spec discovered subs

/-- Closed instance of `parse_names_nodup_and_merge`: a duplicate
discovered name is dropped, a fresh one is appended. -/
theorem parse_names_nodup_and_merge_witness :
    (namesOf (mergeDiscoveredItems
      [⟨"build".data, none, none, none⟩]
      [⟨"build".data, some "dup".data, none, none⟩,
       ⟨"test".data, none, none, none⟩])).Nodup ∧
    mergeDiscoveredItems
      [⟨"build".data, none, none, none⟩]
      [⟨"build".data, some "dup".data, none, none⟩,
       ⟨"test".data, none, none, none⟩] =
      [⟨"build".data, none, none, none⟩, ⟨"test".data, none, none, none⟩] := by
  constructor
  · exact (parse_names_nodup_and_merge.2
      [⟨"build".data, none, none, none⟩]
      [⟨"build".data, some "dup".data, none, none⟩,
       ⟨"test".data, none, none, none⟩]).1 (by decide)
  · decide

/-- The token pattern `[A-Za-z_][A-Za-z0-9_-]*` that the spec claims
for subcommand names (first character a letter or underscore). -/
def claimTokenLike : Str → Bool
  | [] => false
  | c :: cs =>
    (c.isAlpha || c = '_') && cs.all (fun x => x.isAlphanum || x = '_' || x = '-')

theorem tokenName_props {n : Str} (h : TokenName n) :
    n ≠ [] ∧ startsWithStr n ['-'] = false := by
  rcases h with ⟨c, cs, rfl, hc, _⟩
  refine ⟨by simp, ?_⟩
  have hcd : c ≠ '-' := by
    intro he
    subst he
    exact absurd hc (by decide)
  simp [startsWithStr, List.isPrefixOf, Ne.symm hcd]

theorem defaultPatterns_good : ∀ p ∈ defaultConfig.subcommandPatterns, GoodCapture p := by
  intro p hp
  simp only [defaultConfig, defaultPatterns, List.mem_cons, List.not_mem_nil,
    or_false] at hp
  rcases hp with h | h | h <;> subst h
  · exact defaultEntry1_token
  · exact defaultEntry2_token
  · exact defaultEntry3_token

/-- **C5 (amended).** Under the default configuration every parsed
subcommand name is non-empty, does not begin with `-`, and matches
`[\w][\w-]*`: a word character (letter, digit or underscore — the
leading character may be a digit) followed by word characters or `-`. -/
theorem parse_default_names_word_tokens (help : Str) :
    ∀ sc ∈ parseSubcommands help defaultConfig,
      sc.name ≠ [] ∧ startsWithStr sc.name ['-'] = false ∧ TokenName sc.name := by
  intro sc hsc
  have htok : TokenName sc.name := by
    revert hsc
    unfold parseSubcommands
    simp only []
    repeat' split
    all_goals intro hsc
    all_goals first
      | exact parseAggressive_token _ sc hsc
      | exact parseGitStyle_token _ sc hsc
      | exact parsePatterns_token defaultConfig.subcommandPatterns
          defaultPatterns_good _ sc hsc
  exact ⟨(tokenName_props htok).1, (tokenName_props htok).2, htok⟩

/-- Closed instance of `parse_default_names_word_tokens` at a standard
`Commands:` section. -/
theorem parse_default_names_word_tokens_witness :
    ("build".data : Str) ≠ [] ∧ startsWithStr "build".data ['-'] = false ∧
      TokenName "build".data :=
  parse_default_names_word_tokens "Commands:\n  build  Compile".data
    ⟨"build".data, some "Compile".data, none, none⟩ (by decide)

/-- **C5 counterexample.** The default entry regexes capture names with
`[\w][\w-]*`, whose first character may be a digit: the help text
`"Commands:\n  2fa  Two-factor auth"` yields the subcommand name `2fa`,
which does not match the claimed token pattern
`[A-Za-z_][A-Za-z0-9_-]*`. -/
theorem parse_default_digit_name_cex :
    namesOf (parseSubcommands "Commands:\n  2fa  Two-factor auth".data
      defaultConfig) = ["2fa".data] ∧
    claimTokenLike "2fa".data = false := by decide

/-!
## SEE ALSO extraction (`parse_see_also`, src/app.rs:560-613)
-/

/-- The three accepted SEE ALSO headers (after trimming). -/
def seeAlsoHeader (t : Str) : Bool :=
  t = "SEE ALSO".data || t = "See Also".data || t = "SEE  ALSO".data

/-- The section-ending test of `parse_see_also` (src/app.rs:574-578),
applied to the trimmed line: non-empty, not starting with a space
(vacuous after trimming), uppercase-leading, no `(`. -/
def seeAlsoEnd (t : Str) : Bool :=
  !t.isEmpty && !startsWithStr t [' '] &&
    (t.head?.map Char.isUpper).getD false && !(t.contains '(')

/-- The accumulation loop of `parse_see_also` (src/app.rs:566-584):
accumulated lines keep their original text plus a trailing space; the
end test `break`s out of the loop. -/
def seeAlsoAccum (inSA : Bool) (acc : Str) : List Str → Str
  | [] => acc
  | line :: rest =>
    let t := rustTrim line
    if seeAlsoHeader t then seeAlsoAccum true acc rest
    else if inSA then
      if seeAlsoEnd t then acc
      else seeAlsoAccum inSA (acc ++ line ++ [' ']) rest
    else seeAlsoAccum inSA acc rest

/-- Regex `[\w.-]` (tail class of a manual-page reference name). -/
def isWordDotDash (c : Char) : Bool := isWordChar c || c = '.' || c = '-'

/-- One attempt to match `([\w][\w.-]*)\(\d+\)` at the head of `l`:
the maximal `[\w.-]` run starting with a word character, immediately
followed by `(`, one or more digits, `)`.  Returns the captured name
and the remainder after `)`. -/
def refAt (l : Str) : Option (Str × Str) :=
  match l with
  | [] => none
  | c :: _ =>
    if isWordChar c then
      let name := l.takeWhile isWordDotDash
      let after := l.drop name.length
      match after with
      | '(' :: t =>
        let ds := t.takeWhile Char.isDigit
        let rest := t.drop ds.length
        if ds ≠ [] then
          match rest with
          | ')' :: rest2 => some (name, rest2)
          | _ => none
        else none
      | _ => none
    else none

/-- `captures_iter` for `([\w][\w.-]*)\(\d+\)`: scan left to right for
non-overlapping leftmost matches.  On failure at a word character the
whole `[\w.-]` run is skipped (no position inside the run can start a
match ending elsewhere), otherwise one character.  `fuel ≥ length`
suffices since every step consumes at least one character. -/
def scanRefs : Nat → Str → List Str
  | 0, _ => []
  | _ + 1, [] => []
  | fuel + 1, c :: rest =>
    match refAt (c :: rest) with
    | some (name, rest2) => name :: scanRefs fuel rest2
    | none =>
      if isWordChar c then
        scanRefs fuel ((c :: rest).drop ((c :: rest).takeWhile isWordDotDash).length)
      else scanRefs fuel rest

/-- `parse_see_also` (src/app.rs:560-613). -/
def parseSeeAlso (content : Str) (baseCmd : Str) : List Subcommand :=
  let text := seeAlsoAccum false [] (rustLines content)
  if text.isEmpty then []
  else
    let pre := baseCmd ++ "-".data
    (scanRefs text.length text).filterMap fun name =>
      if ¬startsWithStr name pre ∧ name ≠ baseCmd then none
      else if name = baseCmd then none
      else some ⟨name, none, some "Man Pages".data, some ("man ".data ++ name)⟩

/-- The claimed SEE ALSO entry for a reference name. -/
def seeAlsoItem (name : Str) : Subcommand :=
  ⟨name, none, some "Man Pages".data, some ("man ".data ++ name)⟩

/-- The section-ending test exactly as the claim words it: the header
must additionally be **non-indented** as a raw line. -/
def seeAlsoEndClaim (line : Str) : Bool :=
  let t := rustTrim line
  !t.isEmpty && !startsWithStr line [' '] && !startsWithStr line ['\t'] &&
    (t.head?.map Char.isUpper).getD false && !(t.contains '(')

/-- SEE ALSO accumulation following the claim's words (ending only at
non-indented headers). -/
def seeAlsoAccumClaim (inSA : Bool) (acc : Str) : List Str → Str
  | [] => acc
  | line :: rest =>
    let t := rustTrim line
    if seeAlsoHeader t then seeAlsoAccumClaim true acc rest
    else if inSA then
      if seeAlsoEndClaim line then acc
      else seeAlsoAccumClaim inSA (acc ++ line ++ [' ']) rest
    else seeAlsoAccumClaim inSA acc rest

/-- `parse_see_also` as the claim states it: accumulate until the next
uppercase-leading **non-indented** header without parentheses, then keep
exactly the references whose name starts with `<base>-` and is not the
base command. -/
def parseSeeAlsoClaim (content : Str) (baseCmd : Str) : List Subcommand :=
  let text := seeAlsoAccumClaim false [] (rustLines content)
  if text.isEmpty then []
  else
    let pre := baseCmd ++ "-".data
    ((scanRefs text.length text).filter fun name =>
      startsWithStr name pre && name != baseCmd).map seeAlsoItem

/-- The section-ending test with the amendment: the indentation of the
line is irrelevant, only the trimmed text matters. -/
def seeAlsoEndAmended (t : Str) : Bool :=
  !t.isEmpty && (t.head?.map Char.isUpper).getD false && !(t.contains '(')

/-- SEE ALSO accumulation per the amended claim. -/
def seeAlsoAccumAmended (inSA : Bool) (acc : Str) : List Str → Str
  | [] => acc
  | line :: rest =>
    let t := rustTrim line
    if seeAlsoHeader t then seeAlsoAccumAmended true acc rest
    else if inSA then
      if seeAlsoEndAmended t then acc
      else seeAlsoAccumAmended inSA (acc ++ line ++ [' ']) rest
    else seeAlsoAccumAmended inSA acc rest

/-- `parse_see_also` per the amended claim: accumulate after the first
SEE ALSO header, stop at the next line whose trimmed text is non-empty,
uppercase-leading and parenthesis-free (indented or not), and return
exactly the references `name(digits)` whose name starts with `<base>-`
and is not the base command itself. -/
def parseSeeAlsoAmended (content : Str) (baseCmd : Str) : List Subcommand :=
  let text := seeAlsoAccumAmended false [] (rustLines content)
  if text.isEmpty then []
  else
    let pre := baseCmd ++ "-".data
    ((scanRefs text.length text).filter fun name =>
      startsWithStr name pre && name != baseCmd).map seeAlsoItem

theorem rustTrim_head_not_white {l : Str} {c : Char} {cs : Str}
    (h : rustTrim l = c :: cs) : isWhite c = false := by
  unfold rustTrim at h
  have hsuf : (l.dropWhile isWhite).reverse.dropWhile isWhite <:+
      (l.dropWhile isWhite).reverse := List.dropWhile_suffix _
  have hpre : ((l.dropWhile isWhite).reverse.dropWhile isWhite).reverse <+:
      l.dropWhile isWhite := by
    have := hsuf.reverse
    simpa using this
  rw [h] at hpre
  rcases hpre with ⟨t, ht⟩
  have hhead : (l.dropWhile isWhite).head? = some c := by rw [← ht]; rfl
  have hnw := List.head?_dropWhile_not isWhite l
  rw [hhead] at hnw
  exact hnw

theorem seeAlsoEnd_eq_amended (line : Str) :
    seeAlsoEnd (rustTrim line) = seeAlsoEndAmended (rustTrim line) := by
  cases h : rustTrim line with
  | nil => simp [seeAlsoEnd, seeAlsoEndAmended]
  | cons c cs =>
    have hw := rustTrim_head_not_white h
    have hcs : c ≠ ' ' := by
      intro he
      rw [he] at hw
      exact absurd hw (by decide)
    have : startsWithStr (c :: cs) [' '] = false := by
      simp [startsWithStr, List.isPrefixOf, hcs, Ne.symm hcs]
    simp [seeAlsoEnd, seeAlsoEndAmended, this]

theorem seeAlsoAccum_eq_amended :
    ∀ (lines : List Str) (inSA : Bool) (acc : Str),
      seeAlsoAccum inSA acc lines = seeAlsoAccumAmended inSA acc lines := by
  intro lines
  induction lines with
  | nil => intro inSA acc; rfl
  | cons line rest ih =>
    intro inSA acc
    unfold seeAlsoAccum seeAlsoAccumAmended
    simp only []
    by_cases hh : seeAlsoHeader (rustTrim line)
    · simp only [hh, if_pos]
      exact ih true acc
    · simp only [hh, Bool.false_eq_true, if_false]
      cases inSA with
      | false => simpa using ih false acc
      | true =>
        simp only [if_pos]
        rw [seeAlsoEnd_eq_amended]
        by_cases he : seeAlsoEndAmended (rustTrim line)
        · simp [he]
        · simp only [he, Bool.false_eq_true, if_false]
          exact ih true (acc ++ line ++ [' '])

theorem seeAlso_filterMap_eq (baseCmd : Str) :
    ∀ names : List Str,
      (names.filterMap fun name =>
        if ¬startsWithStr name (baseCmd ++ "-".data) ∧ name ≠ baseCmd then none
        else if name = baseCmd then none
        else some ⟨name, none, some "Man Pages".data, some ("man ".data ++ name)⟩) =
      ((names.filter fun name =>
        startsWithStr name (baseCmd ++ "-".data) && name != baseCmd).map seeAlsoItem) := by
  intro names
  induction names with
  | nil => rfl
  | cons n rest ih =>
    rw [List.filterMap_cons, List.filter_cons]
    by_cases h1 : startsWithStr n (baseCmd ++ "-".data)
    · by_cases h2 : n = baseCmd
      · simp [h1, h2, seeAlsoItem] at ih ⊢
        try exact ih
      · simp [h1, h2, seeAlsoItem] at ih ⊢
        try exact ih
    · by_cases h2 : n = baseCmd
      · simp [h1, h2, seeAlsoItem] at ih ⊢
        try exact ih
      · simp [h1, h2, seeAlsoItem] at ih ⊢
        try exact ih

/-- **C8 (amended).** `parse_see_also` accumulates text after the first
`SEE ALSO` / `See Also` / `SEE  ALSO` header (compared after trimming),
stops at the next line whose trimmed text is non-empty, begins with an
uppercase letter and contains no parenthesis — the line's indentation is
irrelevant, since the code applies its non-indentation test to the
trimmed line — and returns exactly those references `name(digits)` in
the accumulated text whose name starts with `<base>-` and is not the
base command itself. -/
theorem parse_see_also_amended (content baseCmd : Str) :
    parseSeeAlso content baseCmd = parseSeeAlsoAmended content baseCmd := by
  unfold parseSeeAlso parseSeeAlsoAmended
  rw [seeAlsoAccum_eq_amended]
  simp only []
  split
  · rfl
  · exact seeAlso_filterMap_eq baseCmd _

/-- **C8 counterexample.** An *indented* uppercase-leading line without
parentheses inside the SEE ALSO section ends the accumulation in the
code (the non-indentation requirement is tested on the trimmed line,
where it always holds), while the claim's reading accumulates past it:
on `"SEE ALSO\n   Also see\n   git-log(1)\n"` the code finds nothing,
the claimed algorithm finds `git-log`. -/
theorem parse_see_also_indented_header_cex :
    parseSeeAlso "SEE ALSO\n   Also see\n   git-log(1)\n".data "git".data = [] ∧
    parseSeeAlsoClaim "SEE ALSO\n   Also see\n   git-log(1)\n".data "git".data =
      [seeAlsoItem "git-log".data] := by decide

/-!
## Finder (`src/finder.rs`)

The fuzzy matcher is the external `nucleo` crate; the spec treats the
scoring algorithm as a pluggable dependency, so the `Finder` carries it
as a scoring function (haystack → needle → optional score).
-/

/-- `Finder` (src/finder.rs:13-21).  `fm` is the stored
`nucleo::Matcher` as its `fuzzy_match` behavior. -/
structure Finder where
  fm : Str → Str → Option Nat
  items : List Subcommand
  query : Str
  filtered : List (Nat × Nat)
  selected : Nat
  scrollOffset : Nat
  visibleHeight : Nat

/-- The searchable text of one item (src/finder.rs:79-91):
`[label ]name[ description]`. -/
def searchableText (item : Subcommand) : Str :=
  (match item.label with
   | some label => label ++ [' ']
   | none => []) ++
  item.name ++
  (match item.description with
   | some desc => [' '] ++ desc
   | none => [])

/-- The per-item term loop (src/finder.rs:96-110): every term must
match (fzf AND semantics); scores accumulate with `u32` saturating
addition. -/
def scoreTermsGo (fm : Str → Str → Option Nat) (hay : Str) :
    List Str → Nat → Option Nat
  | [], total => some total
  | t :: ts, total =>
    match fm hay t with
    | some sc => scoreTermsGo fm hay ts (min (total + sc) 4294967295)
    | none => none

/-- Comparator of `filtered.sort_by(|a, b| b.0.cmp(&a.0))`
(src/finder.rs:120): scores descending. -/
def scoreDescLe (a b : Nat × Nat) : Bool := decide (b.1 ≤ a.1)

/-- The unsorted `(score, index)` list built by `update_filtered`
(src/finder.rs:78-117): each matching item contributes its total score
clamped to `u16::MAX`. -/
def scoredList (fm : Str → Str → Option Nat) (items : List Subcommand)
    (terms : List Str) : List (Nat × Nat) :=
  items.enum.filterMap fun p =>
    (scoreTermsGo fm (searchableText p.2) terms 0).map fun total =>
      (min total 65535, p.1)

/-- `Finder::update_filtered` (src/finder.rs:60-121) as a function of
the inputs: an empty or all-whitespace query lists every item with
score 0 in order; otherwise score and stable-sort descending. -/
def computeFiltered (fm : Str → Str → Option Nat) (items : List Subcommand)
    (query : Str) : List (Nat × Nat) :=
  if query.isEmpty then (List.range items.length).map fun i => (0, i)
  else
    let terms := splitWs query
    if terms.isEmpty then (List.range items.length).map fun i => (0, i)
    else (scoredList fm items terms).mergeSort scoreDescLe

/-- In-place `update_filtered`. -/
def Finder.updateFiltered (f : Finder) : Finder :=
  { f with filtered := computeFiltered f.fm f.items f.query }

/-- `Finder::new` (src/finder.rs:24-36). -/
def Finder.new (fm : Str → Str → Option Nat) (items : List Subcommand) :
    Finder :=
  Finder.updateFiltered ⟨fm, items, [], [], 0, 0, 10⟩

/-- `Finder::set_query` (src/finder.rs:39-44). -/
def Finder.setQuery (f : Finder) (q : Str) : Finder :=
  { Finder.updateFiltered { f with query := q } with
    selected := 0, scrollOffset := 0 }

/-- `Finder::push_char` (src/finder.rs:46-51). -/
def Finder.pushChar (f : Finder) (c : Char) : Finder :=
  { Finder.updateFiltered { f with query := f.query ++ [c] } with
    selected := 0, scrollOffset := 0 }

/-- `Finder::pop_char` (src/finder.rs:53-58). -/
def Finder.popChar (f : Finder) : Finder :=
  { Finder.updateFiltered { f with query := f.query.dropLast } with
    selected := 0, scrollOffset := 0 }

/-- `Finder::move_up` (src/finder.rs:123-127). -/
def Finder.moveUp (f : Finder) : Finder :=
  if 0 < f.selected then { f with selected := f.selected - 1 } else f

/-- `Finder::move_down` (src/finder.rs:129-133). -/
def Finder.moveDown (f : Finder) : Finder :=
  if f.selected + 1 < f.filtered.length then
    { f with selected := f.selected + 1 }
  else f

/-- `Finder::move_up_by` (src/finder.rs:135-137, saturating). -/
def Finder.moveUpBy (f : Finder) (n : Nat) : Finder :=
  { f with selected := f.selected - n }

/-- `Finder::move_down_by` (src/finder.rs:139-142, clamped). -/
def Finder.moveDownBy (f : Finder) (n : Nat) : Finder :=
  { f with selected := min (f.selected + n) (f.filtered.length - 1) }

/-- `Finder::selected_item` (src/finder.rs:148-152); the Rust index
`self.items[*idx]` is total because filtered indices come from
`enumerate`. -/
def Finder.selectedItem (f : Finder) : Option Subcommand :=
  (f.filtered.get? f.selected).bind fun p => f.items.get? p.2

/-- `FinderAction` (src/finder.rs:218-223). -/
inductive FinderAction | none | close | select
deriving DecidableEq

/-- Key codes the finder distinguishes (crossterm `KeyCode`). -/
inductive KeyCode
  | esc | enter | up | down | backspace
  | char (c : Char)
  | other
deriving DecidableEq

/-- A key event with its modifier state (`modifiers.is_empty()` ↔ no
ctrl and no shift). -/
structure KeyEvent where
  code : KeyCode
  ctrl : Bool
  shift : Bool
deriving DecidableEq

/-- `Finder::handle_key` (src/finder.rs:163-215). -/
def Finder.handleKey (f : Finder) (k : KeyEvent) : Finder × FinderAction :=
  match k.code with
  | .esc => (f, .close)
  | .enter => if f.selectedItem.isSome then (f, .select) else (f, .none)
  | .up => if !k.ctrl && !k.shift then (f.moveUp, .none) else (f, .none)
  | .down => if !k.ctrl && !k.shift then (f.moveDown, .none) else (f, .none)
  | .char c =>
    if c = 'p' ∧ k.ctrl then (f.moveUp, .none)
    else if c = 'n' ∧ k.ctrl then (f.moveDown, .none)
    else if c = 'u' ∧ k.ctrl then (f.moveUpBy (f.visibleHeight / 2), .none)
    else if c = 'd' ∧ k.ctrl then (f.moveDownBy (f.visibleHeight / 2), .none)
    else if c = 'b' ∧ k.ctrl then (f.moveUpBy f.visibleHeight, .none)
    else if c = 'f' ∧ k.ctrl then (f.moveDownBy f.visibleHeight, .none)
    else (f.pushChar c, .none)
  | .backspace => (f.popChar, .none)
  | .other => (f, .none)

/-!
## Navigation state machine (`src/app.rs`, `src/history.rs`,
`src/pager.rs`)

`fetch_best_content` is referenced by `src/app.rs` but is not among the
sources; the drill path abstracts it as a function parameter, exactly as
the process environment is abstracted for `fetch_help`.  The discovery
receiver and key-handler fields are event-plumbing omitted from the
state the modelled claims observe.
-/

/-- `ContentSource` (the `{Help, Man}` tag of fetched content). -/
inductive ContentSource | help | man
deriving DecidableEq

/-- `HistoryEntry` (src/history.rs:3-8). -/
structure HistoryEntry where
  command : List Str
  scrollPosition : Nat
  source : ContentSource
deriving DecidableEq

/-- `Pager` (src/pager.rs:10-17). -/
structure Pager where
  content : List Str
  scroll : Nat
  searchQuery : Option Str
  searchMatches : List Nat
  currentMatch : Nat
deriving DecidableEq

/-- `Pager::new` (src/pager.rs:19-30). -/
def Pager.new (content : Str) : Pager := ⟨rustLines content, 0, none, [], 0⟩

/-- `AppState` (src/app.rs:25-32). -/
inductive AppState | paging | searching | finding | switching | help
deriving DecidableEq

/-- `App` (src/app.rs:34-51), restricted to the state the modelled
claims observe. -/
structure App where
  state : AppState
  pager : Pager
  finder : Option Finder
  history : List HistoryEntry
  commandHistory : List Str
  config : Config
  currentCommand : List Str
  subcommands : List Subcommand
  searchInput : Str
  shouldQuit : Bool
  errorMessage : Option Str
  contentSource : ContentSource

/-- `fetch_help_with_invoke` (src/fetcher.rs:40-71); a spawn failure
surfaces as an error whose text is environment-specific (modelled by a
fixed placeholder). -/
def fetchHelpWithInvoke (env : FetchEnv) (base name template : Str) :
    Except Str Str :=
  let cmdStr := replaceStr (replaceStr template "{base}".data base)
    "{name}".data name
  match splitWs cmdStr with
  | [] => .error "Invalid invoke command".data
  | parts =>
    match env parts with
    | none => .error "io error".data
    | some r =>
      if rustTrim r.stdout ≠ [] then .ok r.stdout
      else if rustTrim r.stderr ≠ [] ∧ (r.success || looksLikeHelp r.stderr) then
        .ok r.stderr
      else
        .error ("Could not fetch help for '".data ++ base ++ [' '] ++ name ++
          "'".data)

/-- The fetch step of `App::drill_into_item` (src/app.rs:340-364): a
custom invoke template keeps the command level and derives the source
from the `man ` prefix; otherwise the path is extended and
`fetch_best_content` (not among the sources; abstracted as
`fetchBest`) is consulted. -/
def drillFetchResult (env : FetchEnv)
    (fetchBest : List Str → Except Str (Str × ContentSource))
    (app : App) (item : Subcommand) : Except Str (Str × ContentSource) :=
  let base := app.currentCommand.headD []
  match item.invokeCommand with
  | some inv =>
    (fetchHelpWithInvoke env base item.name inv).map fun t =>
      (t, if startsWithStr inv "man ".data then ContentSource.man
          else ContentSource.help)
  | none => fetchBest (app.currentCommand ++ [item.name])

/-- `App::drill_into_item` (src/app.rs:332-405): push the history
entry, fetch, and either install the new content (re-parsing
subcommands, merging SEE ALSO for man content of a template drill,
extending the path for a standard drill) or roll the history back and
set the error banner. -/
def drillIntoItem (env : FetchEnv)
    (fetchBest : List Str → Except Str (Str × ContentSource))
    (app : App) (item : Subcommand) : App :=
  let app1 := { app with
    history := app.history ++
      [HistoryEntry.mk app.currentCommand app.pager.scroll app.contentSource] }
  let base := app.currentCommand.headD []
  match drillFetchResult env fetchBest app item with
  | .ok (content, source) =>
    let subs0 := parseSubcommands content app.config
    let subs :=
      match item.invokeCommand with
      | some _ =>
        if source = ContentSource.man then
          mergeDiscoveredItems subs0 (parseSeeAlso content base)
        else subs0
      | none => subs0
    let app2 :=
      match item.invokeCommand with
      | some _ => app1
      | none => { app1 with currentCommand := app.currentCommand ++ [item.name] }
    { app2 with
      contentSource := source
      subcommands := subs
      pager := Pager.new content
      finder := none
      state := .paging }
  | .error e =>
    { app1 with
      history := app1.history.dropLast
      errorMessage := some ("Could not fetch help: ".data ++ e)
      finder := none
      state := .paging }

/-- `App::handle_finding_key` (src/app.rs:286-303). -/
def handleFindingKey (env : FetchEnv)
    (fetchBest : List Str → Except Str (Str × ContentSource))
    (app : App) (k : KeyEvent) : App :=
  match app.finder with
  | none => app
  | some f =>
    let fa := f.handleKey k
    let app' := { app with finder := some fa.1 }
    match fa.2 with
    | .close => { app' with finder := none, state := .paging }
    | .select =>
      match fa.1.selectedItem with
      | some item => drillIntoItem env fetchBest app' item
      | none => app'
    | .none => app'

/-!
### Finder invariants and navigation safety
-/

theorem pairwise_all {α : Type _} (R : α → α → Prop) (h : ∀ a b, R a b) :
    ∀ l : List α, l.Pairwise R := by
  intro l
  induction l with
  | nil => exact List.Pairwise.nil
  | cons a t ih => exact List.Pairwise.cons (fun b _ => h a b) ih

theorem computeFiltered_sorted (fm : Str → Str → Option Nat)
    (items : List Subcommand) (query : Str) :
    (computeFiltered fm items query).Pairwise
      (fun a b : Nat × Nat => b.1 ≤ a.1) := by
  have htrans : ∀ a b c : Nat × Nat,
      scoreDescLe a b → scoreDescLe b c → scoreDescLe a c := by
    intro a b c hab hbc
    simp only [scoreDescLe, decide_eq_true_eq] at *
    omega
  have htotal : ∀ a b : Nat × Nat, scoreDescLe a b || scoreDescLe b a := by
    intro a b
    simp only [scoreDescLe]
    rcases Nat.le_total b.1 a.1 with h | h <;> simp [h]
  have hconst : ∀ n : Nat,
      (((List.range n).map fun i => ((0 : Nat), i)).Pairwise
        (fun a b : Nat × Nat => b.1 ≤ a.1)) := by
    intro n
    rw [List.pairwise_map]
    exact pairwise_all _ (fun _ _ => Nat.le_refl 0) _
  unfold computeFiltered
  split
  · exact hconst _
  · simp only []
    split
    · exact hconst _
    · exact (List.sorted_mergeSort htrans htotal _).imp
        (fun h => by simpa [scoreDescLe] using h)

/-- The finder invariant as the code maintains it: `filtered` sorted by
score descending, and the selection in range when there are matches —
pinned to 0 when there are none. -/
def FinderInv (f : Finder) : Prop :=
  f.filtered.Pairwise (fun a b : Nat × Nat => b.1 ≤ a.1) ∧
  (f.filtered ≠ [] → f.selected < f.filtered.length) ∧
  (f.filtered = [] → f.selected = 0)

theorem finderInv_reset {f : Finder}
    (hp : f.filtered.Pairwise (fun a b : Nat × Nat => b.1 ≤ a.1))
    (hs : f.selected = 0) : FinderInv f :=
  ⟨hp, fun hne => hs ▸ List.length_pos.mpr hne, fun _ => hs⟩

/-- **C7 (amended).** After construction and every query edit the
filtered list is sorted by score descending and the selection is reset
to 0 (in range `[0, len)` when matches exist, and equal to 0 — one past
the empty range — when the query matches nothing); every
selection-moving operation preserves this invariant. -/
theorem finder_invariant_ops :
    (∀ fm items, FinderInv (Finder.new fm items)) ∧
    (∀ (f : Finder) q, FinderInv (f.setQuery q)) ∧
    (∀ (f : Finder) c, FinderInv (f.pushChar c)) ∧
    (∀ f : Finder, FinderInv f.popChar) ∧
    (∀ f : Finder, FinderInv f → FinderInv f.moveUp) ∧
    (∀ f : Finder, FinderInv f → FinderInv f.moveDown) ∧
    (∀ (f : Finder) n, FinderInv f → FinderInv (f.moveUpBy n)) ∧
    (∀ (f : Finder) n, FinderInv f → FinderInv (f.moveDownBy n)) := by
  refine ⟨?_, ?_, ?_, ?_, ?_, ?_, ?_, ?_⟩
  · intro fm items
    exact finderInv_reset (computeFiltered_sorted fm items []) rfl
  · intro f q
    exact finderInv_reset (computeFiltered_sorted f.fm f.items q) rfl
  · intro f c
    exact finderInv_reset (computeFiltered_sorted f.fm f.items (f.query ++ [c])) rfl
  · intro f
    exact finderInv_reset (computeFiltered_sorted f.fm f.items f.query.dropLast) rfl
  · intro f ⟨hp, hne, hemp⟩
    unfold Finder.moveUp
    split
    · exact ⟨hp, fun h => Nat.lt_of_le_of_lt (Nat.sub_le _ _) (hne h),
        fun h => by rename_i hpos; rw [hemp h] at hpos; exact absurd hpos (by simp)⟩
    · exact ⟨hp, hne, hemp⟩
  · intro f ⟨hp, hne, hemp⟩
    unfold Finder.moveDown
    split
    · rename_i hlt
      exact ⟨hp, fun _ => hlt, fun h => by rw [h] at hlt; simp at hlt⟩
    · exact ⟨hp, hne, hemp⟩
  · intro f n ⟨hp, hne, hemp⟩
    refine ⟨hp, fun h => ?_, fun h => ?_⟩
    · show f.selected - n < f.filtered.length
      exact Nat.lt_of_le_of_lt (Nat.sub_le _ _) (hne h)
    · show f.selected - n = 0
      have := hemp h
      omega
  · intro f n ⟨hp, hne, hemp⟩
    refine ⟨hp, fun h => ?_, fun h => ?_⟩
    · show min (f.selected + n) (f.filtered.length - 1) < f.filtered.length
      have hlen : 0 < f.filtered.length := List.length_pos.mpr h
      have hmin := Nat.min_le_right (f.selected + n) (f.filtered.length - 1)
      omega
    · show min (f.selected + n) (f.filtered.length - 1) = 0
      have h1 : f.filtered.length = 0 := by
        have h2 : f.filtered = [] := h
        rw [h2]
        rfl
      rw [h1, hemp h]
      simp

/-- A matcher that matches nothing (the behavior of the real matcher on
a needle that occurs in no item, e.g. the query `z` against `build`). -/
def fmNone : Str → Str → Option Nat := fun _ _ => none

/-- The finder state reached by typing `z` over the single item
`build` with a matcher that finds no match. -/
def noMatchFinder : Finder :=
  (Finder.new fmNone [⟨"build".data, none, none, none⟩]).pushChar 'z'

/-- **C7 counterexample.** With no matches the filtered list is empty
while the selection is 0, so the claimed invariant
`selected ∈ [0, len(filtered))` fails: the half-open range `[0, 0)` is
empty. -/
theorem finder_empty_selected_cex :
    noMatchFinder.filtered = [] ∧ noMatchFinder.selected = 0 ∧
    ¬(noMatchFinder.selected < noMatchFinder.filtered.length) := by
  have h2 : splitWs ['z'] = [['z']] := rfl
  have h1 : scoredList fmNone [⟨"build".data, none, none, none⟩] [['z']] = [] :=
    rfl
  have hf : noMatchFinder.filtered = [] := by
    show computeFiltered fmNone [⟨"build".data, none, none, none⟩] ['z'] = []
    simp [computeFiltered, h2, h1]
  exact ⟨hf, rfl, by rw [hf]; simp⟩

/-- Closed instance of the hypothesis-bearing conjuncts of
`finder_invariant_ops`: moving down from a freshly constructed finder
keeps the invariant. -/
theorem finder_invariant_ops_witness :
    FinderInv ((Finder.new fmNone [⟨"build".data, none, none, none⟩]).moveDown) :=
  finder_invariant_ops.2.2.2.2.2.1
    (Finder.new fmNone [⟨"build".data, none, none, none⟩])
    (finder_invariant_ops.1 fmNone [⟨"build".data, none, none, none⟩])

/-- **C10.** With an empty filtered list `selected_item` is `None` and
`Enter` in the finder produces `FinderAction::None`: the app state is
completely unchanged — no drill-in, no history push. -/
theorem finder_no_match_enter (f : Finder) (k : KeyEvent)
    (hf : f.filtered = []) (hk : k.code = KeyCode.enter) :
    f.selectedItem = none ∧ f.handleKey k = (f, FinderAction.none) ∧
    (∀ env fetchBest app, app.finder = some f →
      handleFindingKey env fetchBest app k = app) := by
  have hsel : f.selectedItem = none := by
    simp [Finder.selectedItem, hf]
  have hkey : f.handleKey k = (f, FinderAction.none) := by
    unfold Finder.handleKey
    rw [hk]
    simp [hsel]
  refine ⟨hsel, hkey, ?_⟩
  intro env fetchBest app happ
  unfold handleFindingKey
  rw [happ]
  simp only [hkey]
  obtain ⟨s, p, fin, hh, ch, cfg, cc, sub, si, sq, em, cs⟩ := app
  simp only [App.mk.injEq] at happ ⊢
  simp_all

/-- Closed instance of `finder_no_match_enter` at a finder whose item
list itself is empty. -/
theorem finder_no_match_enter_witness :
    (Finder.new fmNone []).selectedItem = none ∧
    (Finder.new fmNone []).handleKey ⟨KeyCode.enter, false, false⟩ =
      (Finder.new fmNone [], FinderAction.none) :=
  ⟨(finder_no_match_enter (Finder.new fmNone []) ⟨KeyCode.enter, false, false⟩
      rfl rfl).1,
   (finder_no_match_enter (Finder.new fmNone []) ⟨KeyCode.enter, false, false⟩
      rfl rfl).2.1⟩

/-- **C6.** When the fetch of a drill-in fails, the pushed history
entry is popped again (the navigation stack equals its pre-drill
value), the error banner is set, the state machine returns to `Paging`,
and pager, command path and subcommand list are untouched. -/
theorem drill_failure_rolls_back (env : FetchEnv)
    (fetchBest : List Str → Except Str (Str × ContentSource))
    (app : App) (item : Subcommand) (e : Str)
    (h : drillFetchResult env fetchBest app item = .error e) :
    (drillIntoItem env fetchBest app item).history = app.history ∧
    (drillIntoItem env fetchBest app item).state = AppState.paging ∧
    (drillIntoItem env fetchBest app item).errorMessage =
      some ("Could not fetch help: ".data ++ e) ∧
    (drillIntoItem env fetchBest app item).finder = none ∧
    (drillIntoItem env fetchBest app item).pager = app.pager ∧
    (drillIntoItem env fetchBest app item).currentCommand = app.currentCommand ∧
    (drillIntoItem env fetchBest app item).subcommands = app.subcommands := by
  unfold drillIntoItem
  rw [h]
  simp

/-- Closed instance of `drill_failure_rolls_back`: a failing fetch
leaves the concrete app exactly as it was, banner aside. -/
theorem drill_failure_rolls_back_witness :
    (drillIntoItem (fun _ => none) (fun _ => .error "boom".data)
        ⟨.paging, ⟨[], 0, none, [], 0⟩, none, [], [], ⟨[], [], []⟩,
          ["git".data], [], [], false, none, .help⟩
        ⟨"commit".data, none, none, none⟩).history = [] ∧
    (drillIntoItem (fun _ => none) (fun _ => .error "boom".data)
        ⟨.paging, ⟨[], 0, none, [], 0⟩, none, [], [], ⟨[], [], []⟩,
          ["git".data], [], [], false, none, .help⟩
        ⟨"commit".data, none, none, none⟩).state = AppState.paging := by
  have h := drill_failure_rolls_back (fun _ => none)
    (fun _ => .error "boom".data)
    ⟨.paging, ⟨[], 0, none, [], 0⟩, none, [], [], ⟨[], [], []⟩,
      ["git".data], [], [], false, none, .help⟩
    ⟨"commit".data, none, none, none⟩ "boom".data rfl
  exact ⟨h.1, h.2.1⟩

end Helpv
